import Mathlib

/-!
# Verification of the dzwarp minimum-circle-cover engine

Shallow embedding of `computeMinimumCircles` (the greedy fixed-radius disk
cover engine of the `dzzones` tool) and of the CLI radius validation that
guards it.

Modelling decisions, each tied to the JavaScript source:

* Coordinates are rationals (`ℚ`).  The source computes
  `Math.hypot(point.x - center.x, point.y - center.y) <= maxRadius`; for a
  non-negative radius `r` this is equivalent to
  `(dx)^2 + (dy)^2 ≤ r^2`, which is exact over `ℚ`.  All claims about the
  engine assume `0 < radius`, where the two forms agree.

* The source stores points as distinct JavaScript objects, and
  `uncoveredPoints.indexOf(pt)` / `splice` remove one occurrence by object
  identity (`===`), never by coordinate value.  We model object identity by
  tagging every input point with its position in the input list
  (`IdPoint := ℕ × Point`); the tags of the initial working list are
  pairwise distinct, so erasing by tag is exactly erasing by reference.

* The outer `while` loop is written with explicit fuel, one unit per
  iteration, returning `Option`: `none` models both fuel exhaustion and the
  `TypeError` the source would raise when `bestCircle` stays `null`
  (`bestCircle.points.forEach` on `null`).  The termination theorem shows
  that with fuel equal to the number of input points the result is always
  `some`.
-/

namespace Dzwarp

/-- A 2-D point, as produced by the point extractor (`{ x: pos.x, y: pos.y }`). -/
structure Point where
  x : ℚ
  y : ℚ
deriving DecidableEq, Repr

/-- A point together with its identity tag: the JavaScript objects in
`uncoveredPoints` are distinct references, modelled by the index each point
had in the input list. -/
abbrev IdPoint := ℕ × Point

/-- The circle record built at lines 103–107 of the source:
`{ center, radius: maxRadius, points: coveredPoints }`. -/
structure Circle where
  center : IdPoint
  radius : ℚ
  points : List IdPoint
deriving DecidableEq, Repr

/-- Squared Euclidean distance.  `Math.hypot(dx, dy) <= r` for `0 ≤ r` is
equivalent to `sqDist ≤ r^2`. -/
def sqDist (p q : Point) : ℚ :=
  (p.x - q.x) ^ 2 + (p.y - q.y) ^ 2

/-- The inner scan (lines 90–99): the sublist of `uncovered` whose members
are within distance `r` of `center`, inclusive. -/
def coveredBy (r : ℚ) (center : IdPoint) (uncovered : List IdPoint) : List IdPoint :=
  uncovered.filter fun p => decide (sqDist p.2 center.2 ≤ r ^ 2)

/-- The candidate scan (lines 85–109): walk the remaining candidates in
order, keeping `(bestCircle, maxCovered)`; a candidate replaces the best
only when its covered count strictly exceeds `maxCovered`
(`coveredPoints.length > maxCovered`), so the first candidate attaining the
maximal count wins. -/
def selectBestAux (r : ℚ) (all : List IdPoint) :
    List IdPoint → Option Circle → ℕ → Option Circle × ℕ
  | [], best, maxCov => (best, maxCov)
  | c :: rest, best, maxCov =>
    let covered := coveredBy r c all
    if maxCov < covered.length then
      selectBestAux r all rest (some ⟨c, r, covered⟩) covered.length
    else
      selectBestAux r all rest best maxCov

/-- One full candidate scan over the current uncovered list, starting from
`bestCircle = null`, `maxCovered = 0`. -/
def selectBest (r : ℚ) (uncovered : List IdPoint) : Option Circle × ℕ :=
  selectBestAux r uncovered uncovered none 0

/-- The removal step (lines 112–117): for each covered point, erase from the
working list the first entry that is the same object
(`uncoveredPoints.indexOf(pt)` uses `===`, i.e. tag equality here); a point
no longer present is skipped (`index !== -1`). -/
def removeCovered (covered : List IdPoint) (uncovered : List IdPoint) : List IdPoint :=
  covered.foldl (fun acc pt => acc.eraseP fun q => q.1 == pt.1) uncovered

/-- The outer `while (uncoveredPoints.length > 0)` loop with explicit fuel.
`none` stands for the runs the source does not complete normally (it would
throw when no candidate covers anything); the termination theorem shows this
never happens for the fuel used by `computeMinimumCircles`. -/
def loop (r : ℚ) : ℕ → List IdPoint → Option (List Circle)
  | _, [] => some []
  | 0, _ :: _ => none
  | fuel + 1, p :: rest =>
    match (selectBest r (p :: rest)).1 with
    | none => none
    | some best =>
      (loop r fuel (removeCovered best.points (p :: rest))).map (best :: ·)

/-- Tag each point with its index in the input list, modelling the distinct
object references in `[...points]`. -/
def tagPoints : ℕ → List Point → List IdPoint
  | _, [] => []
  | n, p :: ps => (n, p) :: tagPoints (n + 1) ps

/-- `computeMinimumCircles(points, maxRadius)` (lines 80–123). -/
def computeMinimumCircles (points : List Point) (maxRadius : ℚ) : Option (List Circle) :=
  loop maxRadius points.length (tagPoints 0 points)

/-- One iteration of the outer loop as a state transformer (used to describe
the uncovered list at each iteration). -/
def stepOnce (r : ℚ) (u : List IdPoint) : List IdPoint :=
  match (selectBest r u).1 with
  | none => u
  | some c => removeCovered c.points u

/-- The uncovered working list at the start of iteration `n` of the outer
loop, starting from `u`. -/
def uncoveredAfter (r : ℚ) (u : List IdPoint) (n : ℕ) : List IdPoint :=
  (stepOnce r)^[n] u

/-- The covered count a candidate `p` would get against the uncovered list
`u` (`coveredPoints.length` at lines 92–99). -/
def coverCount (r : ℚ) (u : List IdPoint) (p : IdPoint) : ℕ :=
  (coveredBy r p u).length

/-! ## The CLI radius validation (lines 26–29)

`options.radius` is `parseFloat` of a command-line string: a JavaScript
number, i.e. NaN, `±Infinity`, or a finite value.  The guard is
`!options.radius || isNaN(options.radius) || options.radius <= 0`. -/

/-- A JavaScript number as far as the validation can distinguish them. -/
inductive JsNum where
  | nan
  | posInf
  | negInf
  | num (q : ℚ)
deriving DecidableEq, Repr

/-- JavaScript truthiness of a number: `0` and `NaN` are falsy. -/
def jsTruthy : JsNum → Bool
  | .nan => false
  | .posInf => true
  | .negInf => true
  | .num q => decide (q ≠ 0)

/-- `isNaN` on a number. -/
def jsIsNaN : JsNum → Bool
  | .nan => true
  | _ => false

/-- The JavaScript comparison `r <= 0` (false on NaN). -/
def jsLeZero : JsNum → Bool
  | .nan => false
  | .posInf => false
  | .negInf => true
  | .num q => decide (q ≤ 0)

/-- Line 26: the radius is rejected (error printed, process exits before any
file read or computation) iff `!r || isNaN(r) || r <= 0`. -/
def radiusRejected (r : JsNum) : Bool :=
  !jsTruthy r || jsIsNaN r || jsLeZero r

/-- "a finite positive number" in the sense of the specification. -/
def isFinitePositive : JsNum → Bool
  | .num q => decide (0 < q)
  | _ => false

/-! ## Basic lemmas about the removal step -/

theorem removeCovered_nil (u : List IdPoint) : removeCovered [] u = u := rfl

theorem removeCovered_cons (pt : IdPoint) (covered u : List IdPoint) :
    removeCovered (pt :: covered) u
      = removeCovered covered (u.eraseP fun q => q.1 == pt.1) := rfl

theorem removeCovered_sublist (covered : List IdPoint) :
    ∀ u : List IdPoint, List.Sublist (removeCovered covered u) u := by
  induction covered with
  | nil => intro u; simp [removeCovered_nil]
  | cons pt rest ih =>
    intro u
    rw [removeCovered_cons]
    exact (ih _).trans (List.eraseP_sublist u)

theorem removeCovered_length_le (covered u : List IdPoint) :
    (removeCovered covered u).length ≤ u.length :=
  (removeCovered_sublist covered u).length_le

/-- Each removal erases at most one occurrence: removing one occurrence of a
duplicate never removes its sibling. -/
theorem removeCovered_length_ge (covered : List IdPoint) :
    ∀ u : List IdPoint, u.length ≤ (removeCovered covered u).length + covered.length := by
  induction covered with
  | nil => intro u; simp [removeCovered_nil]
  | cons pt rest ih =>
    intro u
    rw [removeCovered_cons]
    have h1 : u.length ≤ (u.eraseP fun q => q.1 == pt.1).length + 1 := by
      have := List.le_length_eraseP (l := u) (p := fun q => q.1 == pt.1)
      omega
    have h2 := ih (u.eraseP fun q => q.1 == pt.1)
    simp only [List.length_cons]
    omega

/-- A removal that starts by erasing a present tag strictly shrinks the list. -/
theorem removeCovered_length_lt (pt : IdPoint) (covered u : List IdPoint)
    (hmem : pt ∈ u) :
    (removeCovered (pt :: covered) u).length < u.length := by
  rw [removeCovered_cons]
  have herase : ((u.eraseP fun q => q.1 == pt.1).length) = u.length - 1 :=
    List.length_eraseP_of_mem hmem (by simp)
  have hpos : 0 < u.length := List.length_pos_of_mem hmem
  have := removeCovered_length_le covered (u.eraseP fun q => q.1 == pt.1)
  omega

/-- A point whose tag is hit by none of the removed points survives removal. -/
theorem mem_removeCovered (covered : List IdPoint) :
    ∀ (u : List IdPoint) (q : IdPoint), q ∈ u →
      (∀ pt ∈ covered, q.1 ≠ pt.1) → q ∈ removeCovered covered u := by
  induction covered with
  | nil => intro u q hq _; simpa [removeCovered_nil] using hq
  | cons pt rest ih =>
    intro u q hq hne
    rw [removeCovered_cons]
    refine ih _ q ?_ ?_
    · refine (List.mem_eraseP_of_neg ?_).2 hq
      simp only [beq_iff_eq]
      exact hne pt (by simp)
    · intro w hw
      exact hne w (by simp [hw])

/-! ## Basic lemmas about the covered-subset scan -/

theorem mem_coveredBy {r : ℚ} {center : IdPoint} {u : List IdPoint} {p : IdPoint} :
    p ∈ coveredBy r center u ↔ p ∈ u ∧ sqDist p.2 center.2 ≤ r ^ 2 := by
  simp [coveredBy, List.mem_filter]

theorem sqDist_self (p : Point) : sqDist p p = 0 := by
  simp [sqDist]

/-- Every candidate covers at least itself (distance 0). -/
theorem self_mem_coveredBy {r : ℚ} {c : IdPoint} {u : List IdPoint} (hc : c ∈ u) :
    c ∈ coveredBy r c u :=
  mem_coveredBy.2 ⟨hc, by rw [sqDist_self]; positivity⟩

theorem coveredBy_subset (r : ℚ) (center : IdPoint) (u : List IdPoint) :
    coveredBy r center u ⊆ u := by
  intro p hp
  exact (mem_coveredBy.1 hp).1

theorem coverCount_eq (r : ℚ) (u : List IdPoint) (p : IdPoint) :
    coverCount r u p = (coveredBy r p u).length := rfl

/-- A candidate in the list has a positive covered count. -/
theorem coverCount_pos {r : ℚ} {u : List IdPoint} {c : IdPoint} (hc : c ∈ u) :
    0 < coverCount r u c := by
  have := self_mem_coveredBy (r := r) hc
  have : c ∈ coveredBy r c u := this
  exact List.length_pos.2 (fun h => by simp [h] at this)

/-- Covered counts only shrink when the uncovered list shrinks. -/
theorem coverCount_mono {u v : List IdPoint} (h : List.Sublist u v) (r : ℚ) (p : IdPoint) :
    coverCount r u p ≤ coverCount r v p :=
  (h.filter _).length_le

/-! ## Characterization of the candidate scan -/

/-- Invariant of the scan at lines 88–109: either no candidate beat the
incoming accumulator (and every scanned candidate's count is at most `m`),
or the result is the first candidate attaining the running maximum — every
candidate before it counts strictly less, every one after it at most as
much. -/
theorem selectBestAux_spec (r : ℚ) (all : List IdPoint) :
    ∀ (l : List IdPoint) (best : Option Circle) (m : ℕ),
      (selectBestAux r all l best m = (best, m) ∧ ∀ p ∈ l, coverCount r all p ≤ m)
      ∨ (∃ c l₁ l₂,
          (selectBestAux r all l best m).1 = some c ∧
          (selectBestAux r all l best m).2 = coverCount r all c.center ∧
          c.radius = r ∧ c.points = coveredBy r c.center all ∧
          l = l₁ ++ c.center :: l₂ ∧
          m < coverCount r all c.center ∧
          (∀ p ∈ l₁, coverCount r all p < coverCount r all c.center) ∧
          (∀ p ∈ l₂, coverCount r all p ≤ coverCount r all c.center)) := by
  intro l
  induction l with
  | nil =>
    intro best m
    left
    exact ⟨rfl, by simp⟩
  | cons c rest ih =>
    intro best m
    by_cases hcm : m < (coveredBy r c all).length
    · have hunf : selectBestAux r all (c :: rest) best m
          = selectBestAux r all rest (some ⟨c, r, coveredBy r c all⟩)
              (coveredBy r c all).length := by
        simp [selectBestAux, hcm]
      rw [hunf]
      rcases ih (some ⟨c, r, coveredBy r c all⟩) (coveredBy r c all).length with
        ⟨heq, hall⟩ | ⟨c', l₁, l₂, h1, h2, h3, h4, h5, h6, h7, h8⟩
      · right
        refine ⟨⟨c, r, coveredBy r c all⟩, [], rest, ?_, ?_, rfl, rfl, rfl, hcm, ?_, ?_⟩
        · rw [heq]
        · rw [heq]; simp [coverCount_eq]
        · intro p hp; cases hp
        · intro p hp; exact hall p hp
      · right
        refine ⟨c', c :: l₁, l₂, h1, h2, h3, h4, by simp [h5], ?_, ?_, h8⟩
        · exact lt_trans hcm h6
        · intro p hp
          rcases List.mem_cons.1 hp with hpc | hpl
          · subst hpc; simpa [coverCount_eq] using h6
          · exact h7 p hpl
    · have hunf : selectBestAux r all (c :: rest) best m
          = selectBestAux r all rest best m := by
        simp [selectBestAux, hcm]
      rw [hunf]
      rcases ih best m with ⟨heq, hall⟩ | ⟨c', l₁, l₂, h1, h2, h3, h4, h5, h6, h7, h8⟩
      · left
        refine ⟨heq, ?_⟩
        intro p hp
        rcases List.mem_cons.1 hp with hpc | hpl
        · subst hpc; simpa [coverCount_eq] using le_of_not_lt hcm
        · exact hall p hpl
      · right
        refine ⟨c', c :: l₁, l₂, h1, h2, h3, h4, by simp [h5], h6, ?_, h8⟩
        intro p hp
        rcases List.mem_cons.1 hp with hpc | hpl
        · subst hpc
          have := le_of_not_lt hcm
          rw [coverCount_eq]
          omega
        · exact h7 p hpl

/-- Full description of the circle chosen by one candidate scan. -/
theorem selectBest_spec {r : ℚ} {u : List IdPoint} {c : Circle}
    (h : (selectBest r u).1 = some c) :
    c.radius = r ∧ c.points = coveredBy r c.center u ∧ c.center ∈ u ∧
    c.points.length = coverCount r u c.center ∧
    (∀ p ∈ u, coverCount r u p ≤ coverCount r u c.center) ∧
    ∃ l₁ l₂, u = l₁ ++ c.center :: l₂ ∧
      (∀ p ∈ l₁, coverCount r u p < coverCount r u c.center) := by
  rcases selectBestAux_spec r u u none 0 with ⟨heq, _⟩ |
    ⟨c', l₁, l₂, h1, _, h3, h4, h5, _, h7, h8⟩
  · rw [selectBest] at h
    rw [heq] at h
    cases h
  · rw [selectBest] at h
    rw [h1] at h
    injection h with h
    rw [h] at h3 h4 h5 h7 h8
    have hcmem : c.center ∈ u := by
      rw [h5]
      exact List.mem_append_right _ (List.mem_cons_self _ _)
    refine ⟨h3, h4, hcmem, ?_, ?_, l₁, l₂, h5, h7⟩
    · rw [h4, coverCount_eq]
    · intro p hp
      rw [h5] at hp
      rcases List.mem_append.1 hp with hpl | hpr
      · exact le_of_lt (h7 p hpl)
      · rcases List.mem_cons.1 hpr with hpc | hpl₂
        · subst hpc; exact le_refl _
        · exact h8 p hpl₂

/-- The scan over a non-empty list always settles on a circle (every
candidate covers at least itself). -/
theorem selectBest_isSome (r : ℚ) (u : List IdPoint) (hu : u ≠ []) :
    ∃ c, (selectBest r u).1 = some c := by
  rcases selectBestAux_spec r u u none 0 with ⟨_, hall⟩ |
    ⟨c', _, _, h1, _⟩
  · rcases List.exists_mem_of_ne_nil u hu with ⟨p, hp⟩
    have h1 := coverCount_pos (r := r) hp
    have h2 := hall p hp
    omega
  · exact ⟨c', by rw [selectBest]; exact h1⟩

/-! ## The outer loop -/

theorem loop_nil (r : ℚ) (fuel : ℕ) : loop r fuel [] = some [] := by
  cases fuel <;> rfl

theorem loop_succ_cons_some {r : ℚ} {fuel : ℕ} {p : IdPoint} {rest : List IdPoint}
    {best : Circle} (h : (selectBest r (p :: rest)).1 = some best) :
    loop r (fuel + 1) (p :: rest)
      = (loop r fuel (removeCovered best.points (p :: rest))).map (best :: ·) := by
  rw [loop, h]

/-- The chosen circle's covered subset is non-empty and starts inside the
current list, so each iteration strictly shrinks the uncovered list. -/
theorem stepOnce_length_lt {r : ℚ} {u : List IdPoint} {c : Circle}
    (h : (selectBest r u).1 = some c) :
    (removeCovered c.points u).length < u.length := by
  obtain ⟨_, hpts, hcmem, _, _, _⟩ := selectBest_spec h
  have hself : c.center ∈ c.points := by
    rw [hpts]; exact self_mem_coveredBy hcmem
  rcases List.exists_cons_of_ne_nil (List.ne_nil_of_mem hself) with ⟨pt, covered', hcons⟩
  have hptmem : pt ∈ u := by
    refine coveredBy_subset r c.center u ?_
    rw [← hpts, hcons]
    exact List.mem_cons_self _ _
  rw [hcons]
  exact removeCovered_length_lt pt covered' u hptmem

theorem stepOnce_eq_of_some {r : ℚ} {u : List IdPoint} {c : Circle}
    (h : (selectBest r u).1 = some c) :
    stepOnce r u = removeCovered c.points u := by
  rw [stepOnce, h]

theorem stepOnce_sublist (r : ℚ) (u : List IdPoint) :
    List.Sublist (stepOnce r u) u := by
  rw [stepOnce]
  cases hsel : (selectBest r u).1 with
  | none => exact List.Sublist.refl u
  | some c => exact removeCovered_sublist c.points u

theorem uncoveredAfter_zero (r : ℚ) (u : List IdPoint) :
    uncoveredAfter r u 0 = u := rfl

theorem uncoveredAfter_succ (r : ℚ) (u : List IdPoint) (n : ℕ) :
    uncoveredAfter r u (n + 1) = uncoveredAfter r (stepOnce r u) n := by
  simp [uncoveredAfter, Function.iterate_succ_apply]

theorem uncoveredAfter_sublist (r : ℚ) :
    ∀ (n : ℕ) (u : List IdPoint), List.Sublist (uncoveredAfter r u n) u := by
  intro n
  induction n with
  | zero => intro u; exact List.Sublist.refl u
  | succ n ih =>
    intro u
    rw [uncoveredAfter_succ]
    exact (ih (stepOnce r u)).trans (stepOnce_sublist r u)

/-- With fuel at least the number of uncovered points, the loop completes. -/
theorem loop_isSome (r : ℚ) :
    ∀ (fuel : ℕ) (u : List IdPoint), u.length ≤ fuel →
      ∃ cs, loop r fuel u = some cs := by
  intro fuel
  induction fuel with
  | zero =>
    intro u hu
    have : u = [] := List.eq_nil_of_length_eq_zero (Nat.le_zero.1 hu)
    subst this
    exact ⟨[], loop_nil r 0⟩
  | succ fuel ih =>
    intro u hu
    cases u with
    | nil => exact ⟨[], loop_nil r _⟩
    | cons p rest =>
      rcases selectBest_isSome r (p :: rest) (by simp) with ⟨best, hbest⟩
      have hlt := stepOnce_length_lt hbest
      rcases ih (removeCovered best.points (p :: rest)) (by
        have := hu; simp only [List.length_cons] at this; omega) with ⟨cs, hcs⟩
      refine ⟨best :: cs, ?_⟩
      rw [loop_succ_cons_some hbest, hcs]
      rfl

/-- The loop yields at most one circle per removed point. -/
theorem loop_length_le (r : ℚ) :
    ∀ (fuel : ℕ) (u : List IdPoint) (cs : List Circle),
      loop r fuel u = some cs → cs.length ≤ u.length := by
  intro fuel
  induction fuel with
  | zero =>
    intro u cs h
    cases u with
    | nil => rw [loop_nil] at h; injection h with h; subst h; simp
    | cons p rest => cases h
  | succ fuel ih =>
    intro u cs h
    cases u with
    | nil =>
      rw [loop_nil] at h; injection h with h; subst h; simp
    | cons p rest =>
      cases hsel : (selectBest r (p :: rest)).1 with
      | none => rw [loop, hsel] at h; cases h
      | some best =>
        rw [loop_succ_cons_some hsel] at h
        cases hrec : loop r fuel (removeCovered best.points (p :: rest)) with
        | none => rw [hrec] at h; cases h
        | some cs' =>
          rw [hrec] at h
          injection h with h
          subst h
          have h1 := ih _ _ hrec
          have h2 := stepOnce_length_lt hsel
          simp only [List.length_cons] at h2 ⊢
          omega

/-- Trace correspondence: the `i`-th emitted circle is exactly the one the
candidate scan chooses against the uncovered list of iteration `i`. -/
theorem loop_trace (r : ℚ) :
    ∀ (i fuel : ℕ) (u : List IdPoint) (cs : List Circle),
      loop r fuel u = some cs → ∀ hi : i < cs.length,
        (selectBest r (uncoveredAfter r u i)).1 = some (cs.get ⟨i, hi⟩) := by
  intro i
  induction i with
  | zero =>
    intro fuel u cs h hi
    cases u with
    | nil =>
      rw [loop_nil] at h; injection h with h; subst h; simp at hi
    | cons p rest =>
      cases fuel with
      | zero => cases h
      | succ fuel =>
        cases hsel : (selectBest r (p :: rest)).1 with
        | none => rw [loop, hsel] at h; cases h
        | some best =>
          rw [loop_succ_cons_some hsel] at h
          cases hrec : loop r fuel (removeCovered best.points (p :: rest)) with
          | none => rw [hrec] at h; cases h
          | some cs' =>
            rw [hrec] at h
            injection h with h
            subst h
            rw [uncoveredAfter_zero]
            rw [hsel]
            rfl
  | succ i ih =>
    intro fuel u cs h hi
    cases u with
    | nil =>
      rw [loop_nil] at h; injection h with h; subst h; simp at hi
    | cons p rest =>
      cases fuel with
      | zero => cases h
      | succ fuel =>
        cases hsel : (selectBest r (p :: rest)).1 with
        | none => rw [loop, hsel] at h; cases h
        | some best =>
          rw [loop_succ_cons_some hsel] at h
          cases hrec : loop r fuel (removeCovered best.points (p :: rest)) with
          | none => rw [hrec] at h; cases h
          | some cs' =>
            rw [hrec] at h
            injection h with h
            subst h
            rw [uncoveredAfter_succ, stepOnce_eq_of_some hsel]
            have hi' : i < cs'.length := by
              simp only [List.length_cons] at hi; omega
            have := ih fuel (removeCovered best.points (p :: rest)) cs' hrec hi'
            simpa using this

/-- Every circle the loop emits carries the configured radius and its
recorded covered subset, computed against the uncovered list of its
iteration. -/
theorem loop_mem_spec (r : ℚ) :
    ∀ (fuel : ℕ) (u : List IdPoint) (cs : List Circle),
      loop r fuel u = some cs → ∀ c ∈ cs, c.radius = r := by
  intro fuel
  induction fuel with
  | zero =>
    intro u cs h c hc
    cases u with
    | nil => rw [loop_nil] at h; injection h with h; subst h; cases hc
    | cons p rest => cases h
  | succ fuel ih =>
    intro u cs h c hc
    cases u with
    | nil => rw [loop_nil] at h; injection h with h; subst h; cases hc
    | cons p rest =>
      cases hsel : (selectBest r (p :: rest)).1 with
      | none => rw [loop, hsel] at h; cases h
      | some best =>
        rw [loop_succ_cons_some hsel] at h
        cases hrec : loop r fuel (removeCovered best.points (p :: rest)) with
        | none => rw [hrec] at h; cases h
        | some cs' =>
          rw [hrec] at h
          injection h with h
          subst h
          rcases List.mem_cons.1 hc with hcb | hcs'
          · subst hcb
            exact (selectBest_spec hsel).1
          · exact ih _ _ hrec c hcs'

/-! ## Tagging the input points -/

theorem tagPoints_length : ∀ (n : ℕ) (ps : List Point),
    (tagPoints n ps).length = ps.length := by
  intro n ps
  induction ps generalizing n with
  | nil => rfl
  | cons p ps ih => simp [tagPoints, ih]

theorem mem_tagPoints_ge : ∀ (n : ℕ) (ps : List Point) (q : IdPoint),
    q ∈ tagPoints n ps → n ≤ q.1 := by
  intro n ps
  induction ps generalizing n with
  | nil => intro q hq; cases hq
  | cons p ps ih =>
    intro q hq
    rcases List.mem_cons.1 hq with hq | hq
    · subst hq; exact le_refl n
    · exact le_of_lt (lt_of_lt_of_le (Nat.lt_succ_self n) (ih (n + 1) q hq))

/-- The identity tags of the initial working list are pairwise distinct:
distinct JavaScript object references. -/
theorem tagPoints_tags_nodup : ∀ (n : ℕ) (ps : List Point),
    ((tagPoints n ps).map Prod.fst).Nodup := by
  intro n ps
  induction ps generalizing n with
  | nil => simp [tagPoints]
  | cons p ps ih =>
    simp only [tagPoints, List.map_cons, List.nodup_cons]
    refine ⟨?_, ih (n + 1)⟩
    intro hmem
    rcases List.mem_map.1 hmem with ⟨q, hq, hfst⟩
    have := mem_tagPoints_ge (n + 1) ps q hq
    omega

theorem snd_mem_of_mem_tagPoints : ∀ (n : ℕ) (ps : List Point) (q : IdPoint),
    q ∈ tagPoints n ps → q.2 ∈ ps := by
  intro n ps
  induction ps generalizing n with
  | nil => intro q hq; cases hq
  | cons p ps ih =>
    intro q hq
    rcases List.mem_cons.1 hq with hq | hq
    · subst hq; exact List.mem_cons_self _ _
    · exact List.mem_cons_of_mem _ (ih (n + 1) q hq)

theorem mem_tagPoints_of_mem : ∀ (n : ℕ) (ps : List Point) (p : Point),
    p ∈ ps → ∃ k, (k, p) ∈ tagPoints n ps := by
  intro n ps
  induction ps generalizing n with
  | nil => intro p hp; cases hp
  | cons p' ps ih =>
    intro p hp
    rcases List.mem_cons.1 hp with hp | hp
    · subst hp; exact ⟨n, List.mem_cons_self _ _⟩
    · rcases ih (n + 1) p hp with ⟨k, hk⟩
      exact ⟨k, List.mem_cons_of_mem _ hk⟩

/-! ## The coverage invariant -/

/-- On a working list with pairwise distinct tags, every current point ends
up within distance `r` of the center of some emitted circle. -/
theorem loop_coverage (r : ℚ) :
    ∀ (fuel : ℕ) (u : List IdPoint) (cs : List Circle),
      (u.map Prod.fst).Nodup → loop r fuel u = some cs →
      ∀ q ∈ u, ∃ c ∈ cs, sqDist q.2 c.center.2 ≤ r ^ 2 := by
  intro fuel
  induction fuel with
  | zero =>
    intro u cs _ h q hq
    cases u with
    | nil => cases hq
    | cons p rest => cases h
  | succ fuel ih =>
    intro u cs hnodup h q hq
    cases u with
    | nil => cases hq
    | cons p rest =>
      cases hsel : (selectBest r (p :: rest)).1 with
      | none => rw [loop, hsel] at h; cases h
      | some best =>
        rw [loop_succ_cons_some hsel] at h
        cases hrec : loop r fuel (removeCovered best.points (p :: rest)) with
        | none => rw [hrec] at h; cases h
        | some cs' =>
          rw [hrec] at h
          injection h with h
          subst h
          obtain ⟨_, hpts, _, _, _, _⟩ := selectBest_spec hsel
          by_cases hqb : q ∈ best.points
          · refine ⟨best, List.mem_cons_self _ _, ?_⟩
            have := mem_coveredBy.1 (hpts ▸ hqb)
            exact this.2
          · have hsurv : q ∈ removeCovered best.points (p :: rest) := by
              refine mem_removeCovered best.points (p :: rest) q hq ?_
              intro pt hpt hqpt
              have hptu : pt ∈ p :: rest := coveredBy_subset r best.center _ (hpts ▸ hpt)
              have : q = pt :=
                List.inj_on_of_nodup_map hnodup hq hptu hqpt
              exact hqb (this ▸ hpt)
            have hnodup' : ((removeCovered best.points (p :: rest)).map Prod.fst).Nodup :=
              ((removeCovered_sublist best.points (p :: rest)).map Prod.fst).nodup hnodup
            rcases ih _ cs' hnodup' hrec q hsurv with ⟨c, hc, hcd⟩
            exact ⟨c, List.mem_cons_of_mem _ hc, hcd⟩

/-- The engine always completes on the fuel it is given. -/
theorem computeMinimumCircles_isSome (points : List Point) (r : ℚ) :
    ∃ cs, computeMinimumCircles points r = some cs := by
  rw [computeMinimumCircles]
  exact loop_isSome r points.length (tagPoints 0 points) (le_of_eq (tagPoints_length 0 points))

/-- Adjacent covered counts never increase: the next circle's count is
bounded by the previous maximum over a superset working list. -/
theorem counts_adjacent {r : ℚ} {fuel : ℕ} {u0 : List IdPoint} {cs : List Circle}
    (h : loop r fuel u0 = some cs) (i : ℕ) (hi1 : i + 1 < cs.length) :
    (cs.get ⟨i + 1, hi1⟩).points.length
      ≤ (cs.get ⟨i, by omega⟩).points.length := by
  have hi : i < cs.length := by omega
  have htr_i := loop_trace r i fuel u0 cs h hi
  have htr_i1 := loop_trace r (i + 1) fuel u0 cs h hi1
  obtain ⟨_, _, _, hlen_i, hmax_i, _⟩ := selectBest_spec htr_i
  obtain ⟨_, _, hcmem_i1, hlen_i1, _, _⟩ := selectBest_spec htr_i1
  have hsub : List.Sublist (uncoveredAfter r u0 (i + 1)) (uncoveredAfter r u0 i) := by
    rw [show uncoveredAfter r u0 (i + 1) = stepOnce r (uncoveredAfter r u0 i) from
      Function.iterate_succ_apply' (stepOnce r) i u0]
    exact stepOnce_sublist r _
  have hcmem_i : (cs.get ⟨i + 1, hi1⟩).center ∈ uncoveredAfter r u0 i :=
    hsub.subset hcmem_i1
  calc (cs.get ⟨i + 1, hi1⟩).points.length
      = coverCount r (uncoveredAfter r u0 (i + 1)) (cs.get ⟨i + 1, hi1⟩).center := hlen_i1
    _ ≤ coverCount r (uncoveredAfter r u0 i) (cs.get ⟨i + 1, hi1⟩).center :=
        coverCount_mono hsub r _
    _ ≤ coverCount r (uncoveredAfter r u0 i) (cs.get ⟨i, by omega⟩).center :=
        hmax_i _ hcmem_i
    _ = (cs.get ⟨i, by omega⟩).points.length := hlen_i.symm

/-! ## Claim theorems -/

/-- C1.  Full coverage: for every input list of points (coordinates in `ℚ`,
hence finite) and every radius `r > 0`, every input point lies within
distance `r` (inclusive: `sqDist ≤ r^2`, i.e. Euclidean distance `≤ r`) of
the center of at least one circle in the sequence returned by
`computeMinimumCircles`. -/
theorem computeMinimumCircles_covers (points : List Point) (r : ℚ) (cs : List Circle)
    (hr : 0 < r) (h : computeMinimumCircles points r = some cs) :
    ∀ p ∈ points, ∃ c ∈ cs, sqDist p c.center.2 ≤ r ^ 2 := by
  intro p hp
  rcases mem_tagPoints_of_mem 0 points p hp with ⟨k, hk⟩
  rw [computeMinimumCircles] at h
  have := loop_coverage r points.length (tagPoints 0 points) cs
    (tagPoints_tags_nodup 0 points) h (k, p) hk
  simpa using this

theorem computeMinimumCircles_covers_witness :
    (0 : ℚ) < 1 ∧
    computeMinimumCircles [⟨0, 0⟩] 1 = some [⟨(0, ⟨0, 0⟩), 1, [(0, ⟨0, 0⟩)]⟩] ∧
    ∀ p ∈ [Point.mk 0 0], ∃ c ∈ [Circle.mk (0, ⟨0, 0⟩) 1 [(0, ⟨0, 0⟩)]],
      sqDist p c.center.2 ≤ (1 : ℚ) ^ 2 := by
  refine ⟨by norm_num, ?_, ?_⟩
  · norm_num [computeMinimumCircles, loop, selectBest, selectBestAux, coveredBy,
      sqDist, removeCovered, tagPoints]
  · exact computeMinimumCircles_covers [⟨0, 0⟩] 1 [⟨(0, ⟨0, 0⟩), 1, [(0, ⟨0, 0⟩)]⟩]
      (by norm_num)
      (by norm_num [computeMinimumCircles, loop, selectBest, selectBestAux, coveredBy,
        sqDist, removeCovered, tagPoints])

/-- C4.  Center validity and candidate restriction: every returned circle's
center is a point that was still in the uncovered working list at the moment
that circle was chosen (iteration `i` of the loop), and in particular its
coordinate pair is the coordinate pair of some input point — never a
constructed point. -/
theorem computeMinimumCircles_center_mem (points : List Point) (r : ℚ) (cs : List Circle)
    (hr : 0 < r) (h : computeMinimumCircles points r = some cs) :
    (∀ i (hi : i < cs.length),
      (cs.get ⟨i, hi⟩).center ∈ uncoveredAfter r (tagPoints 0 points) i) ∧
    ∀ c ∈ cs, c.center.2 ∈ points := by
  rw [computeMinimumCircles] at h
  have hmem : ∀ i (hi : i < cs.length),
      (cs.get ⟨i, hi⟩).center ∈ uncoveredAfter r (tagPoints 0 points) i := by
    intro i hi
    exact (selectBest_spec (loop_trace r i points.length (tagPoints 0 points) cs h hi)).2.2.1
  refine ⟨hmem, ?_⟩
  intro c hc
  rcases List.mem_iff_get.1 hc with ⟨⟨i, hi⟩, hget⟩
  have h1 := hmem i hi
  have h2 : (cs.get ⟨i, hi⟩).center ∈ tagPoints 0 points :=
    (uncoveredAfter_sublist r i (tagPoints 0 points)).subset h1
  have h3 := snd_mem_of_mem_tagPoints 0 points _ h2
  rw [hget] at h3
  exact h3

theorem computeMinimumCircles_center_mem_witness :
    (0 : ℚ) < 2 ∧
    computeMinimumCircles [⟨1, 2⟩] 2 = some [⟨(0, ⟨1, 2⟩), 2, [(0, ⟨1, 2⟩)]⟩] ∧
    ((∀ i (hi : i < [Circle.mk (0, ⟨1, 2⟩) 2 [(0, ⟨1, 2⟩)]].length),
      ([Circle.mk (0, ⟨1, 2⟩) 2 [(0, ⟨1, 2⟩)]].get ⟨i, hi⟩).center
        ∈ uncoveredAfter 2 (tagPoints 0 [⟨1, 2⟩]) i) ∧
    ∀ c ∈ [Circle.mk (0, ⟨1, 2⟩) 2 [(0, ⟨1, 2⟩)]], c.center.2 ∈ [Point.mk 1 2]) := by
  refine ⟨by norm_num, ?_, ?_⟩
  · norm_num [computeMinimumCircles, loop, selectBest, selectBestAux, coveredBy,
      sqDist, removeCovered, tagPoints]
  · exact computeMinimumCircles_center_mem [⟨1, 2⟩] 2 [⟨(0, ⟨1, 2⟩), 2, [(0, ⟨1, 2⟩)]⟩]
      (by norm_num)
      (by norm_num [computeMinimumCircles, loop, selectBest, selectBestAux, coveredBy,
        sqDist, removeCovered, tagPoints])

/-- C6.  Boundedness and empty input: the number of returned circles never
exceeds the number of input points; an empty input is not an error and
yields the empty cover; a non-empty input yields at least one circle. -/
theorem computeMinimumCircles_bounded (points : List Point) (r : ℚ) (cs : List Circle)
    (hr : 0 < r) (h : computeMinimumCircles points r = some cs) :
    cs.length ≤ points.length ∧ (points = [] → cs = []) ∧ (points ≠ [] → cs ≠ []) := by
  rw [computeMinimumCircles] at h
  refine ⟨?_, ?_, ?_⟩
  · have := loop_length_le r points.length (tagPoints 0 points) cs h
    rwa [tagPoints_length] at this
  · intro hempty
    subst hempty
    rw [show tagPoints 0 ([] : List Point) = [] from rfl, loop_nil] at h
    injection h with h
    exact h.symm
  · intro hne hcs
    subst hcs
    rcases List.exists_cons_of_ne_nil hne with ⟨p, ps, hcons⟩
    subst hcons
    rw [show tagPoints 0 (p :: ps) = (0, p) :: tagPoints 1 ps from rfl] at h
    rw [show (p :: ps).length = ps.length + 1 from rfl] at h
    cases hsel : (selectBest r ((0, p) :: tagPoints 1 ps)).1 with
    | none => rw [loop, hsel] at h; cases h
    | some best =>
      rw [loop_succ_cons_some hsel] at h
      cases hrec : loop r ps.length
          (removeCovered best.points ((0, p) :: tagPoints 1 ps)) with
      | none => rw [hrec] at h; cases h
      | some cs' => rw [hrec] at h; cases h

theorem computeMinimumCircles_bounded_witness :
    (0 : ℚ) < 1 ∧
    computeMinimumCircles [⟨3, 4⟩] 1 = some [⟨(0, ⟨3, 4⟩), 1, [(0, ⟨3, 4⟩)]⟩] ∧
    ([Circle.mk (0, ⟨3, 4⟩) 1 [(0, ⟨3, 4⟩)]].length ≤ [Point.mk 3 4].length ∧
     ([Point.mk 3 4] = [] → [Circle.mk (0, ⟨3, 4⟩) 1 [(0, ⟨3, 4⟩)]] = []) ∧
     ([Point.mk 3 4] ≠ [] → [Circle.mk (0, ⟨3, 4⟩) 1 [(0, ⟨3, 4⟩)]] ≠ [])) := by
  refine ⟨by norm_num, ?_, ?_⟩
  · norm_num [computeMinimumCircles, loop, selectBest, selectBestAux, coveredBy,
      sqDist, removeCovered, tagPoints]
  · exact computeMinimumCircles_bounded [⟨3, 4⟩] 1 [⟨(0, ⟨3, 4⟩), 1, [(0, ⟨3, 4⟩)]⟩]
      (by norm_num)
      (by norm_num [computeMinimumCircles, loop, selectBest, selectBestAux, coveredBy,
        sqDist, removeCovered, tagPoints])

/-- C7.  Termination: with the fuel `computeMinimumCircles` supplies (one
unit per input point) the loop always completes — because each iteration of
the outer loop removes at least one point from the uncovered list (every
candidate covers at least itself, at distance 0). -/
theorem computeMinimumCircles_terminates (points : List Point) (r : ℚ) (hr : 0 < r) :
    (∃ cs, computeMinimumCircles points r = some cs) ∧
    ∀ u : List IdPoint, u ≠ [] → (stepOnce r u).length < u.length := by
  refine ⟨computeMinimumCircles_isSome points r, ?_⟩
  intro u hu
  rcases selectBest_isSome r u hu with ⟨c, hc⟩
  rw [stepOnce_eq_of_some hc]
  exact stepOnce_length_lt hc

theorem computeMinimumCircles_terminates_witness :
    (0 : ℚ) < 1 ∧
    ((∃ cs, computeMinimumCircles [⟨0, 0⟩] 1 = some cs) ∧
     ∀ u : List IdPoint, u ≠ [] → (stepOnce 1 u).length < u.length) :=
  ⟨by norm_num, computeMinimumCircles_terminates [⟨0, 0⟩] 1 (by norm_num)⟩

/-- C8.  Fixed radius: every returned circle's `radius` field equals the
configured maximum radius exactly; the engine never shrinks a circle. -/
theorem computeMinimumCircles_fixed_radius (points : List Point) (r : ℚ) (cs : List Circle)
    (hr : 0 < r) (h : computeMinimumCircles points r = some cs) :
    ∀ c ∈ cs, c.radius = r := by
  rw [computeMinimumCircles] at h
  exact loop_mem_spec r points.length (tagPoints 0 points) cs h

theorem computeMinimumCircles_fixed_radius_witness :
    (0 : ℚ) < 3 ∧
    computeMinimumCircles [⟨2, 2⟩] 3 = some [⟨(0, ⟨2, 2⟩), 3, [(0, ⟨2, 2⟩)]⟩] ∧
    ∀ c ∈ [Circle.mk (0, ⟨2, 2⟩) 3 [(0, ⟨2, 2⟩)]], c.radius = 3 := by
  refine ⟨by norm_num, ?_, ?_⟩
  · norm_num [computeMinimumCircles, loop, selectBest, selectBestAux, coveredBy,
      sqDist, removeCovered, tagPoints]
  · exact computeMinimumCircles_fixed_radius [⟨2, 2⟩] 3 [⟨(0, ⟨2, 2⟩), 3, [(0, ⟨2, 2⟩)]⟩]
      (by norm_num)
      (by norm_num [computeMinimumCircles, loop, selectBest, selectBestAux, coveredBy,
        sqDist, removeCovered, tagPoints])

/-- C10.  Determinism: two runs on the same point sequence with the same
radius produce identical circle sequences, order included (the engine is a
pure function with no source of nondeterminism). -/
theorem computeMinimumCircles_deterministic (points : List Point) (r : ℚ)
    (out₁ out₂ : Option (List Circle))
    (h₁ : computeMinimumCircles points r = out₁)
    (h₂ : computeMinimumCircles points r = out₂) :
    out₁ = out₂ := by
  rw [← h₁, ← h₂]

theorem computeMinimumCircles_deterministic_witness :
    computeMinimumCircles [⟨0, 0⟩] 1 = computeMinimumCircles [⟨0, 0⟩] 1 :=
  computeMinimumCircles_deterministic [⟨0, 0⟩] 1
    (computeMinimumCircles [⟨0, 0⟩] 1) (computeMinimumCircles [⟨0, 0⟩] 1) rfl rfl

/-- C2.  Greedy selection with first-candidate tie-break: at every iteration
`i` of the outer loop, the emitted circle's center is a member of the
current uncovered list whose covered count is maximal over all current
candidates, and every candidate occurring earlier in the list's iteration
order has a strictly smaller covered count (so among ties the earliest
candidate is chosen). -/
theorem computeMinimumCircles_greedy_tie_break (points : List Point) (r : ℚ)
    (cs : List Circle) (hr : 0 < r) (h : computeMinimumCircles points r = some cs) :
    ∀ i (hi : i < cs.length),
      (cs.get ⟨i, hi⟩).center ∈ uncoveredAfter r (tagPoints 0 points) i ∧
      (∀ p ∈ uncoveredAfter r (tagPoints 0 points) i,
        coverCount r (uncoveredAfter r (tagPoints 0 points) i) p
          ≤ coverCount r (uncoveredAfter r (tagPoints 0 points) i) (cs.get ⟨i, hi⟩).center) ∧
      ∃ l₁ l₂,
        uncoveredAfter r (tagPoints 0 points) i = l₁ ++ (cs.get ⟨i, hi⟩).center :: l₂ ∧
        ∀ p ∈ l₁,
          coverCount r (uncoveredAfter r (tagPoints 0 points) i) p
            < coverCount r (uncoveredAfter r (tagPoints 0 points) i) (cs.get ⟨i, hi⟩).center := by
  intro i hi
  rw [computeMinimumCircles] at h
  obtain ⟨_, _, hcmem, _, hmax, l₁, l₂, hsplit, hlt⟩ :=
    selectBest_spec (loop_trace r i points.length (tagPoints 0 points) cs h hi)
  exact ⟨hcmem, hmax, l₁, l₂, hsplit, hlt⟩

theorem computeMinimumCircles_greedy_tie_break_witness :
    (0 : ℚ) < 1 ∧
    computeMinimumCircles [⟨0, 0⟩] 1 = some [⟨(0, ⟨0, 0⟩), 1, [(0, ⟨0, 0⟩)]⟩] ∧
    ∀ i (hi : i < [Circle.mk (0, ⟨0, 0⟩) 1 [(0, ⟨0, 0⟩)]].length),
      ([Circle.mk (0, ⟨0, 0⟩) 1 [(0, ⟨0, 0⟩)]].get ⟨i, hi⟩).center
          ∈ uncoveredAfter 1 (tagPoints 0 [⟨0, 0⟩]) i ∧
      (∀ p ∈ uncoveredAfter 1 (tagPoints 0 [⟨0, 0⟩]) i,
        coverCount 1 (uncoveredAfter 1 (tagPoints 0 [⟨0, 0⟩]) i) p
          ≤ coverCount 1 (uncoveredAfter 1 (tagPoints 0 [⟨0, 0⟩]) i)
              ([Circle.mk (0, ⟨0, 0⟩) 1 [(0, ⟨0, 0⟩)]].get ⟨i, hi⟩).center) ∧
      ∃ l₁ l₂,
        uncoveredAfter 1 (tagPoints 0 [⟨0, 0⟩]) i
            = l₁ ++ ([Circle.mk (0, ⟨0, 0⟩) 1 [(0, ⟨0, 0⟩)]].get ⟨i, hi⟩).center :: l₂ ∧
        ∀ p ∈ l₁,
          coverCount 1 (uncoveredAfter 1 (tagPoints 0 [⟨0, 0⟩]) i) p
            < coverCount 1 (uncoveredAfter 1 (tagPoints 0 [⟨0, 0⟩]) i)
                ([Circle.mk (0, ⟨0, 0⟩) 1 [(0, ⟨0, 0⟩)]].get ⟨i, hi⟩).center := by
  refine ⟨by norm_num, ?_, ?_⟩
  · norm_num [computeMinimumCircles, loop, selectBest, selectBestAux, coveredBy,
      sqDist, removeCovered, tagPoints]
  · exact computeMinimumCircles_greedy_tie_break [⟨0, 0⟩] 1
      [⟨(0, ⟨0, 0⟩), 1, [(0, ⟨0, 0⟩)]⟩] (by norm_num)
      (by norm_num [computeMinimumCircles, loop, selectBest, selectBestAux, coveredBy,
        sqDist, removeCovered, tagPoints])

/-- C9.  Non-increasing coverage counts: the covered-subset sizes attached
to successive circles are monotonically non-increasing in selection order. -/
theorem computeMinimumCircles_counts_antitone (points : List Point) (r : ℚ)
    (cs : List Circle) (hr : 0 < r) (h : computeMinimumCircles points r = some cs) :
    ∀ i j (hi : i < cs.length) (hj : j < cs.length), i ≤ j →
      (cs.get ⟨j, hj⟩).points.length ≤ (cs.get ⟨i, hi⟩).points.length := by
  rw [computeMinimumCircles] at h
  intro i j hi hj hij
  induction j with
  | zero =>
    have : i = 0 := Nat.le_zero.1 hij
    subst this
    exact le_refl _
  | succ j ihj =>
    rcases Nat.lt_or_ge i (j + 1) with hlt | hge
    · have hij' : i ≤ j := by omega
      have hj' : j < cs.length := by omega
      exact le_trans (counts_adjacent h j hj) (ihj hj' hij')
    · have : i = j + 1 := by omega
      subst this
      exact le_refl _

theorem computeMinimumCircles_counts_antitone_witness :
    (0 : ℚ) < 1 ∧
    computeMinimumCircles [⟨0, 0⟩] 1 = some [⟨(0, ⟨0, 0⟩), 1, [(0, ⟨0, 0⟩)]⟩] ∧
    ∀ i j (hi : i < [Circle.mk (0, ⟨0, 0⟩) 1 [(0, ⟨0, 0⟩)]].length)
        (hj : j < [Circle.mk (0, ⟨0, 0⟩) 1 [(0, ⟨0, 0⟩)]].length), i ≤ j →
      ([Circle.mk (0, ⟨0, 0⟩) 1 [(0, ⟨0, 0⟩)]].get ⟨j, hj⟩).points.length
        ≤ ([Circle.mk (0, ⟨0, 0⟩) 1 [(0, ⟨0, 0⟩)]].get ⟨i, hi⟩).points.length := by
  refine ⟨by norm_num, ?_, ?_⟩
  · norm_num [computeMinimumCircles, loop, selectBest, selectBestAux, coveredBy,
      sqDist, removeCovered, tagPoints]
  · exact computeMinimumCircles_counts_antitone [⟨0, 0⟩] 1
      [⟨(0, ⟨0, 0⟩), 1, [(0, ⟨0, 0⟩)]⟩] (by norm_num)
      (by norm_num [computeMinimumCircles, loop, selectBest, selectBestAux, coveredBy,
        sqDist, removeCovered, tagPoints])

/-- C5.  Duplicate handling by identity: duplicate-valued points are
distinct entries, each occurrence is counted independently, and removal is
by identity of the occurrence — each removed occurrence shrinks the list by
at most one entry, so siblings survive.  In particular for input
`[(5,5), (5,5), (5,5)]` with radius `1` the engine returns exactly one
circle centered at `(5,5)` whose covered count is `3`, not `1`. -/
theorem computeMinimumCircles_duplicates :
    (∃ c : Circle,
      computeMinimumCircles [⟨5, 5⟩, ⟨5, 5⟩, ⟨5, 5⟩] 1 = some [c] ∧
      c.center.2 = Point.mk 5 5 ∧ c.points.length = 3 ∧ c.points.length ≠ 1) ∧
    ∀ covered u : List IdPoint,
      u.length ≤ (removeCovered covered u).length + covered.length := by
  constructor
  · refine ⟨⟨(0, ⟨5, 5⟩), 1, [(0, ⟨5, 5⟩), (1, ⟨5, 5⟩), (2, ⟨5, 5⟩)]⟩, ?_, rfl, rfl, by simp⟩
    norm_num [computeMinimumCircles, loop, selectBest, selectBestAux, coveredBy,
      sqDist, removeCovered, tagPoints]
  · intro covered u
    exact removeCovered_length_ge covered u

/-! ## Claim C3: the radius validation -/

/-- C3, counterexample: an infinite radius is not a finite positive number,
yet the validation at line 26 accepts it (`!Infinity` is false, `isNaN` is
false, `Infinity <= 0` is false), so the covering computation runs with
`radius = Infinity` instead of an invalid-argument rejection. -/
theorem radiusRejected_misses_posInf :
    isFinitePositive JsNum.posInf = false ∧ radiusRejected JsNum.posInf = false := by
  constructor <;> rfl

/-- C3, amended: the radius guard rejects exactly NaN, negative infinity,
and finite non-positive values; a radius of positive infinity passes the
guard (and input point coordinates are never validated anywhere before the
computation). -/
theorem radiusRejected_iff (jr : JsNum) :
    radiusRejected jr = true ↔
      jr = JsNum.nan ∨ jr = JsNum.negInf ∨ ∃ q : ℚ, jr = JsNum.num q ∧ q ≤ 0 := by
  cases jr with
  | nan => simp [radiusRejected, jsTruthy, jsIsNaN, jsLeZero]
  | posInf => simp [radiusRejected, jsTruthy, jsIsNaN, jsLeZero]
  | negInf => simp [radiusRejected, jsTruthy, jsIsNaN, jsLeZero]
  | num q =>
    simp only [radiusRejected, jsTruthy, jsIsNaN, jsLeZero, Bool.or_eq_true,
      Bool.not_eq_true', decide_eq_false_iff_not, not_not, decide_eq_true_eq]
    constructor
    · rintro ((hq | hq) | hq)
      · exact Or.inr (Or.inr ⟨q, rfl, le_of_eq hq⟩)
      · cases hq
      · exact Or.inr (Or.inr ⟨q, rfl, hq⟩)
    · rintro (hq | hq | ⟨q', hq', hle⟩)
      · cases hq
      · cases hq
      · injection hq' with hq'
        subst hq'
        exact Or.inr hle

end Dzwarp
